import Mathlib

/-!
Verification of the intro-detection pipeline: a shallow embedding of
src/models/intro_detector.py and src/features/fingerprint_extractor.py.
Times, similarity values and configuration lengths are modelled as
rationals; the similarity matrix is modelled as a total function on
index pairs (every access the code performs is within bounds).
-/

namespace IntroDetection

/-- The Python builtin int() applied to a nonnegative rational number of
seconds, as used for index arithmetic in find_intro_candidates; negative
configuration values (meaningless as durations) are clamped to zero. -/
def int_floor (q : ℚ) : ℕ := (Rat.floor q).toNat

/-- A Python exception value, abstracted to its message. -/
structure PyErr where
  msg : String
deriving DecidableEq, Repr

instance {ε α : Type} [DecidableEq ε] [DecidableEq α] : DecidableEq (Except ε α) := fun x y =>
  match x, y with
  | .ok a, .ok b =>
    if h : a = b then isTrue (by rw [h]) else isFalse (by intro hc; cases hc; exact h rfl)
  | .error a, .error b =>
    if h : a = b then isTrue (by rw [h]) else isFalse (by intro hc; cases hc; exact h rfl)
  | .ok _, .error _ => isFalse (by intro hc; cases hc)
  | .error _, .ok _ => isFalse (by intro hc; cases hc)

/-- Constructor-level configuration of IntroDetector (intro_detector.py lines 11-23). -/
structure IntroDetector where
  min_intro_length : ℚ
  max_intro_length : ℚ
  similarity_threshold : ℚ
deriving DecidableEq, Repr

/-- One candidate dict as built at intro_detector.py lines 62-67. -/
structure Candidate where
  start_time : ℚ
  end_time : ℚ
  duration : ℚ
  similarity_score : ℚ
deriving DecidableEq, Repr

/-- The result dict of detect_intro (intro_detector.py lines 115-127). -/
inductive DetectionResult where
  | notFound : DetectionResult
  | found (start_time end_time duration confidence : ℚ) : DetectionResult
deriving DecidableEq, Repr

/-! Section: fingerprint_extractor.compute_similarity_matrix (lines 42-67) -/

/-- Hamming distance np.sum(fp1 != fp2) between two boolean fingerprints
of equal length (line 62). -/
def hamming (fp1 fp2 : List Bool) : ℕ :=
  ((fp1.zip fp2).filter (fun p => p.1 != p.2)).length

/-- similarity = 1.0 - distance / len(fp1) (line 63). -/
def fp_similarity (fp1 fp2 : List Bool) : ℚ :=
  1 - (hamming fp1 fp2 : ℚ) / (fp1.length : ℚ)

/-- Ordered insertion used to model the Python sorted() builtin on keys. -/
def insertAsc (x : ℚ) : List ℚ → List ℚ
  | [] => [x]
  | y :: ys => if x ≤ y then x :: y :: ys else y :: insertAsc x ys

/-- times = sorted(fingerprints.keys()) (line 52). -/
def sm_times (fingerprints : List (ℚ × List Bool)) : List ℚ :=
  (fingerprints.map Prod.fst).foldr insertAsc []

/-- Dictionary lookup fingerprints[t] (lines 59-60). -/
def fp_lookup (fingerprints : List (ℚ × List Bool)) (t : ℚ) : List Bool :=
  match fingerprints.find? (fun p => decide (p.1 = t)) with
  | some p => p.2
  | none => []

/-- Entry (i, j) of the returned n by n matrix: the loop fills cell (i, j)
with i ≤ j and mirrors it to (j, i) (lines 56-65); cells outside the
n by n square stay at their np.zeros value. -/
def sm_entry (fingerprints : List (ℚ × List Bool)) (i j : ℕ) : ℚ :=
  let times := sm_times fingerprints
  let n := times.length
  if i < n ∧ j < n then
    if i ≤ j then
      fp_similarity (fp_lookup fingerprints (times.getD i 0)) (fp_lookup fingerprints (times.getD j 0))
    else
      fp_similarity (fp_lookup fingerprints (times.getD j 0)) (fp_lookup fingerprints (times.getD i 0))
  else 0

/-- compute_similarity_matrix returns the matrix together with the sorted
timestamp list (line 67). -/
def compute_similarity_matrix (fingerprints : List (ℚ × List Bool)) :
    (ℕ → ℕ → ℚ) × List ℚ :=
  (sm_entry fingerprints, sm_times fingerprints)

/-! Section: IntroDetector.find_intro_candidates (intro_detector.py lines 25-90) -/

/-- sequence_similarity = np.mean([similarity_matrix[i+k, j+k] for k in
range(min(20, n-j))]) (lines 47-49). -/
def sequence_similarity (M : ℕ → ℕ → ℚ) (n i j : ℕ) : ℚ :=
  let window := (List.range (min 20 (n - j))).map (fun k => M (i + k) (j + k))
  window.sum / (window.length : ℚ)

/-- Number of consecutive indices starting at k (at most fuel of them) on
which p holds; the length of the contiguous above-threshold run that the
extension loop walks. -/
def runLen (p : ℕ → Bool) : ℕ → ℕ → ℕ
  | _, 0 => 0
  | k, fuel + 1 => if p k then runLen p (k + 1) fuel + 1 else 0

/-- Whether cell (i+k, j+k) is strictly above the threshold. -/
def above_thr (cfg : IntroDetector) (M : ℕ → ℕ → ℚ) (i j k : ℕ) : Bool :=
  decide (cfg.similarity_threshold < M (i + k) (j + k))

/-- Iteration bound min(int(self.max_intro_length), n-j) of the extension
loop (line 54). -/
def ext_bound (cfg : IntroDetector) (n j : ℕ) : ℕ :=
  min (int_floor cfg.max_intro_length) (n - j)

/-- The loop of lines 53-58: for k in range(fuel): if above threshold then
end_offset = k else break, with e the current end_offset and k the next
index to probe. -/
def end_offset_loop (cfg : IntroDetector) (M : ℕ → ℕ → ℚ) (i j : ℕ) : ℕ → ℕ → ℕ → ℕ
  | e, _, 0 => e
  | e, k, fuel + 1 =>
    if above_thr cfg M i j k then end_offset_loop cfg M i j k (k + 1) fuel else e

/-- end_offset as computed at lines 53-58 for the pair (i, j). -/
def end_offset (cfg : IntroDetector) (M : ℕ → ℕ → ℚ) (n i j : ℕ) : ℕ :=
  end_offset_loop cfg M i j 0 0 (ext_bound cfg n j)

/-- Body of the pair loop after the max-length check: the lookahead probe
(lines 47-51), the extension (lines 53-58) and the duration filter
(lines 60-67), returning the appended candidate if any. -/
def candidate_probe (cfg : IntroDetector) (M : ℕ → ℕ → ℚ) (times : List ℚ) (i j : ℕ) :
    Option Candidate :=
  let n := times.length
  let seqSim := sequence_similarity M n i j
  if cfg.similarity_threshold < seqSim then
    let e := end_offset cfg M n i j
    let duration := times.getD (i + e) 0 - times.getD i 0
    if cfg.min_intro_length ≤ duration ∧ duration ≤ cfg.max_intro_length then
      some ⟨times.getD i 0, times.getD (i + e) 0, duration, seqSim⟩
    else none
  else none

/-- Body of the pair loop including the continue of lines 43-44. -/
def candidateAt (cfg : IntroDetector) (M : ℕ → ℕ → ℚ) (times : List ℚ) (i j : ℕ) :
    Option Candidate :=
  if cfg.max_intro_length < times.getD j 0 - times.getD i 0 then none
  else candidate_probe cfg M times i j

/-- The unsorted candidates list built by the double loop of lines 40-67:
i in range(n), j in range(i + int(self.min_intro_length), n). -/
def find_intro_candidates_raw (cfg : IntroDetector) (M : ℕ → ℕ → ℚ) (times : List ℚ) :
    List Candidate :=
  let n := times.length
  (List.range n).flatMap (fun i =>
    (List.range' (i + int_floor cfg.min_intro_length)
        (n - (i + int_floor cfg.min_intro_length))).filterMap
      (fun j => candidateAt cfg M times i j))

/-- Stable insertion for the descending sort by similarity_score:
the new element goes after every element with a greater or equal score. -/
def insertCand (c : Candidate) : List Candidate → List Candidate
  | [] => [c]
  | d :: ds =>
    if d.similarity_score < c.similarity_score then c :: d :: ds else d :: insertCand c ds

/-- candidates.sort(key=similarity_score, reverse=True) (line 70): the
stable descending sort by score. -/
def sortCandidates (l : List Candidate) : List Candidate :=
  l.foldl (fun acc c => insertCand c acc) []

/-- Interval overlap test of lines 78-79. -/
def overlapsB (c fc : Candidate) : Bool :=
  decide (c.start_time < fc.end_time) && decide (fc.start_time < c.end_time)

/-- The greedy non-overlap filter with hard cap 5 (lines 73-88), with the
accumulated filtered_candidates passed explicitly. -/
def filter_overlapping : List Candidate → List Candidate → List Candidate
  | filtered, [] => filtered
  | filtered, c :: rest =>
    if filtered.any (fun fc => overlapsB c fc) then filter_overlapping filtered rest
    else
      let filtered2 := filtered ++ [c]
      if 5 ≤ filtered2.length then filtered2
      else filter_overlapping filtered2 rest

/-- find_intro_candidates: raw search, descending sort, overlap filter
(lines 25-90). -/
def find_intro_candidates (cfg : IntroDetector) (M : ℕ → ℕ → ℚ) (times : List ℚ) :
    List Candidate :=
  filter_overlapping [] (sortCandidates (find_intro_candidates_raw cfg M times))

/-! Section: IntroDetector.detect_intro (lines 92-127) -/

/-- The mapping of lines 115-127 from the filtered candidate list to the
returned dict: found False when empty, else the first candidate mapped to
found, start_time, end_time, duration, confidence. -/
def detect_result_of : List Candidate → DetectionResult
  | [] => .notFound
  | best :: _ =>
    .found best.start_time best.end_time best.duration best.similarity_score

/-- detect_intro, with the fingerprint-extraction stage given as an Except
value (a raising FingerprintExtractor constructor or extract_fingerprints
is an error) and an optional exception raised by the candidate search.
The Bool records whether the statement extractor.release_resources() at
line 113 executed; in the source nothing guards it, so any exception
raised by an earlier line propagates past it. -/
def detect_intro_run (cfg : IntroDetector)
    (extract : Except PyErr (List (ℚ × List Bool))) (searchErr : Option PyErr) :
    Bool × Except PyErr DetectionResult :=
  match extract with
  | .error e => (false, .error e)
  | .ok fingerprints =>
    match searchErr with
    | some e => (false, .error e)
    | none =>
      let candidates :=
        find_intro_candidates cfg (sm_entry fingerprints) (sm_times fingerprints)
      (true, .ok (detect_result_of candidates))

/-! Section: IntroDetector.batch_detect_intros (lines 129-154) -/

/-- The extension filter filename.endswith((".mp4", ".avi", ".mkv")) of
line 143. -/
def isSupported (filename : String) : Bool :=
  filename.endsWith ".mp4" || filename.endsWith ".avi" || filename.endsWith ".mkv"

/-- The loop of lines 142-148 over directory entries, each supported file
paired with the outcome of its detect_intro call; results accumulates the
dict. No try/except surrounds the call, so an error outcome propagates. -/
def batch_loop : List (String × Except PyErr DetectionResult) →
    List (String × DetectionResult) → Except PyErr (List (String × DetectionResult))
  | [], results => .ok results
  | (filename, outcome) :: rest, results =>
    if isSupported filename then
      match outcome with
      | .error e => .error e
      | .ok r => batch_loop rest (results ++ [(filename, r)])
    else batch_loop rest results

/-- batch_detect_intros over a directory listing. -/
def batch_detect_intros (files : List (String × Except PyErr DetectionResult)) :
    Except PyErr (List (String × DetectionResult)) :=
  batch_loop files []

/-! Section: Spec-side definitions used for refinement comparisons -/

/-- Modelled from the spec: the minimum intro length converted to a number
of samples at the configured sampling rate, the quantity named
min_intro_length_samples in claim C1; it appears nowhere in the source,
whose loop bound uses int(self.min_intro_length) directly. -/
def min_intro_length_samples (cfg : IntroDetector) (sampling_rate : ℚ) : ℕ :=
  int_floor (cfg.min_intro_length * sampling_rate)

/-- Modelled from the spec: the candidate enumeration claim C1 describes,
over exactly the ordered pairs (i, j) with j > i + min_intro_length_samples
and times[j] - times[i] ≤ max_intro_length, with the same probe, extension
and duration logic as the source on each pair. -/
def find_intro_candidates_raw_specified (cfg : IntroDetector) (sampling_rate : ℚ)
    (M : ℕ → ℕ → ℚ) (times : List ℚ) : List Candidate :=
  let n := times.length
  (List.range n).flatMap (fun i =>
    (List.range n).filterMap (fun j =>
      if i + min_intro_length_samples cfg sampling_rate < j ∧
          times.getD j 0 - times.getD i 0 ≤ cfg.max_intro_length then
        candidate_probe cfg M times i j
      else none))

/-- Every off-diagonal entry of the n by n matrix M is strictly below t. -/
abbrev off_diag_below (M : ℕ → ℕ → ℚ) (n : ℕ) (t : ℚ) : Prop :=
  ∀ i, i < n → ∀ j, j < n → i ≠ j → M i j < t

/-! Section: Concrete instances used by witnesses and counterexamples -/

/-- The default configuration of the constructor (min 2.0 s, max 30.0 s,
threshold 0.8). -/
def cfg_default : IntroDetector := ⟨2, 30, 4/5⟩

/-- Default max and threshold with min_intro_length = 3 seconds. -/
def cfg_three : IntroDetector := ⟨3, 30, 4/5⟩

/-- Default max and threshold with min_intro_length = 0.5 seconds. -/
def cfg_half : IntroDetector := ⟨1/2, 30, 4/5⟩

/-- Degenerate configuration with min_intro_length = 0 seconds. -/
def cfg_zero : IntroDetector := ⟨0, 30, 1/2⟩

/-- The all-ones similarity matrix of six identical fingerprints. -/
def M_ones : ℕ → ℕ → ℚ := fun _ _ => 1

/-- The identity-like similarity matrix: pairwise completely distinct
fingerprints. -/
def M_diag : ℕ → ℕ → ℚ := fun i j => if i = j then 1 else 0

/-- Six timestamps at the default 0.5 samples per second. -/
def times6 : List ℚ := [0, 2, 4, 6, 8, 10]

/-- Five timestamps at the default 0.5 samples per second. -/
def times5 : List ℚ := [0, 2, 4, 6, 8]

/-- A single-sample timeline. -/
def times1 : List ℚ := [0]

/-- A two-bit fingerprint. -/
def fp_a : List Bool := [true, false]

/-- Six samples with identical fingerprints. -/
def fps6 : List (ℚ × List Bool) :=
  [(0, fp_a), (2, fp_a), (4, fp_a), (6, fp_a), (8, fp_a), (10, fp_a)]

/-- Three samples with pairwise different fingerprints: every off-diagonal
similarity is 0 or 1/2, strictly below the default threshold. -/
def fps3 : List (ℚ × List Bool) :=
  [(0, [true, true]), (2, [false, false]), (4, [true, false])]

/-- A single-sample fingerprint mapping. -/
def fps1 : List (ℚ × List Bool) := [(0, fp_a)]

/-- Two samples with fingerprints of length two differing in one bit. -/
def fps2 : List (ℚ × List Bool) := [(0, [true, false]), (2, [true, true])]

/-- A concrete exception. -/
def err0 : PyErr := ⟨"decode failure"⟩

/-- The single candidate surviving on (cfg_default, M_ones, times6). -/
def cand_top : Candidate := ⟨0, 6, 6, 1⟩

/-- A directory listing whose first supported file fails and whose second
supported file would succeed. -/
def files_bad : List (String × Except PyErr DetectionResult) :=
  [("a.mp4", .error err0), ("b.mp4", .ok .notFound)]

/-! Section: Helper lemmas: sorting -/

theorem mem_insertCand {a c : Candidate} {l : List Candidate} :
    a ∈ insertCand c l ↔ a = c ∨ a ∈ l := by
  induction l with
  | nil => simp [insertCand]
  | cons d ds ih =>
    by_cases h : d.similarity_score < c.similarity_score
    · simp [insertCand, h]
    · simp only [insertCand, if_neg h, List.mem_cons, ih]
      tauto

theorem mem_sortCandidates_foldl (l : List Candidate) :
    ∀ (acc : List Candidate) (a : Candidate),
      a ∈ l.foldl (fun acc c => insertCand c acc) acc ↔ a ∈ acc ∨ a ∈ l := by
  induction l with
  | nil => intro acc a; simp
  | cons c t ih =>
    intro acc a
    rw [List.foldl_cons, ih, mem_insertCand]
    simp only [List.mem_cons]
    tauto

theorem mem_sortCandidates {a : Candidate} {l : List Candidate} :
    a ∈ sortCandidates l ↔ a ∈ l := by
  rw [sortCandidates, mem_sortCandidates_foldl]
  simp

theorem sorted_insertCand {c : Candidate} {l : List Candidate}
    (hl : l.Pairwise (fun a b => b.similarity_score ≤ a.similarity_score)) :
    (insertCand c l).Pairwise (fun a b => b.similarity_score ≤ a.similarity_score) := by
  induction l with
  | nil => simp [insertCand]
  | cons d ds ih =>
    rcases List.pairwise_cons.1 hl with ⟨hd, hds⟩
    by_cases h : d.similarity_score < c.similarity_score
    · rw [insertCand, if_pos h]
      refine List.pairwise_cons.2 ⟨?_, hl⟩
      intro b hb
      rcases List.mem_cons.1 hb with rfl | hb
      · exact le_of_lt h
      · exact le_trans (hd b hb) (le_of_lt h)
    · rw [insertCand, if_neg h]
      refine List.pairwise_cons.2 ⟨?_, ih hds⟩
      intro b hb
      rcases mem_insertCand.1 hb with rfl | hb
      · exact le_of_not_lt h
      · exact hd b hb

theorem sorted_sortCandidates_foldl (l : List Candidate) :
    ∀ acc : List Candidate,
      acc.Pairwise (fun a b => b.similarity_score ≤ a.similarity_score) →
      (l.foldl (fun acc c => insertCand c acc) acc).Pairwise
        (fun a b => b.similarity_score ≤ a.similarity_score) := by
  induction l with
  | nil => intro acc h; simpa using h
  | cons c t ih =>
    intro acc h
    rw [List.foldl_cons]
    exact ih _ (sorted_insertCand h)

theorem sorted_sortCandidates (l : List Candidate) :
    (sortCandidates l).Pairwise (fun a b => b.similarity_score ≤ a.similarity_score) :=
  sorted_sortCandidates_foldl l [] (List.Pairwise.nil)

/-! Section: Helper lemmas: the overlap filter -/

theorem mem_filter_overlapping :
    ∀ (l acc : List Candidate) (a : Candidate),
      a ∈ filter_overlapping acc l → a ∈ acc ∨ a ∈ l := by
  intro l
  induction l with
  | nil =>
    intro acc a h
    rw [filter_overlapping] at h
    exact Or.inl h
  | cons c rest ih =>
    intro acc a h
    rw [filter_overlapping] at h
    by_cases hov : acc.any (fun fc => overlapsB c fc)
    · rw [if_pos hov] at h
      rcases ih acc a h with h2 | h2
      · exact Or.inl h2
      · exact Or.inr (List.mem_cons_of_mem c h2)
    · rw [if_neg hov] at h
      by_cases hlen : 5 ≤ (acc ++ [c]).length
      · rw [if_pos hlen] at h
        rcases List.mem_append.1 h with h2 | h2
        · exact Or.inl h2
        · simp only [List.mem_singleton] at h2
          exact Or.inr (h2 ▸ List.mem_cons_self c rest)
      · rw [if_neg hlen] at h
        rcases ih (acc ++ [c]) a h with h2 | h2
        · rcases List.mem_append.1 h2 with h3 | h3
          · exact Or.inl h3
          · simp only [List.mem_singleton] at h3
            exact Or.inr (h3 ▸ List.mem_cons_self c rest)
        · exact Or.inr (List.mem_cons_of_mem c h2)

theorem filter_overlapping_extends :
    ∀ (l acc : List Candidate), ∃ t, filter_overlapping acc l = acc ++ t := by
  intro l
  induction l with
  | nil => intro acc; exact ⟨[], by rw [filter_overlapping]; simp⟩
  | cons c rest ih =>
    intro acc
    rw [filter_overlapping]
    by_cases hov : acc.any (fun fc => overlapsB c fc)
    · rw [if_pos hov]; exact ih acc
    · rw [if_neg hov]
      by_cases hlen : 5 ≤ (acc ++ [c]).length
      · rw [if_pos hlen]; exact ⟨[c], rfl⟩
      · rw [if_neg hlen]
        rcases ih (acc ++ [c]) with ⟨t, ht⟩
        exact ⟨c :: t, by rw [ht]; simp⟩

theorem filter_overlapping_invariant :
    ∀ (l acc : List Candidate),
      acc.Pairwise (fun a b => ¬(a.start_time < b.end_time ∧ b.start_time < a.end_time)) →
      acc.length < 5 →
      (filter_overlapping acc l).Pairwise
        (fun a b => ¬(a.start_time < b.end_time ∧ b.start_time < a.end_time)) ∧
      (filter_overlapping acc l).length ≤ 5 := by
  intro l
  induction l with
  | nil =>
    intro acc hp hlen
    rw [filter_overlapping]
    exact ⟨hp, le_of_lt hlen⟩
  | cons c rest ih =>
    intro acc hp hlen
    rw [filter_overlapping]
    by_cases hov : acc.any (fun fc => overlapsB c fc)
    · rw [if_pos hov]; exact ih acc hp hlen
    · rw [if_neg hov]
      have hnov : ∀ fc ∈ acc, ¬(fc.start_time < c.end_time ∧ c.start_time < fc.end_time) := by
        intro fc hfc hcon
        apply hov
        rw [List.any_eq_true]
        refine ⟨fc, hfc, ?_⟩
        rw [overlapsB]
        simp only [Bool.and_eq_true, decide_eq_true_eq]
        exact ⟨hcon.2, hcon.1⟩
      have hp2 : (acc ++ [c]).Pairwise
          (fun a b => ¬(a.start_time < b.end_time ∧ b.start_time < a.end_time)) := by
        rw [List.pairwise_append]
        refine ⟨hp, List.pairwise_singleton _ _, ?_⟩
        intro a ha b hb
        simp only [List.mem_singleton] at hb
        subst hb
        exact hnov a ha
      by_cases hl5 : 5 ≤ (acc ++ [c]).length
      · rw [if_pos hl5]
        refine ⟨hp2, ?_⟩
        simp only [List.length_append, List.length_singleton]
        omega
      · rw [if_neg hl5]
        apply ih _ hp2
        omega

/-! Section: Helper lemmas: the raw candidate search -/

theorem mem_raw_iff {cfg : IntroDetector} {M : ℕ → ℕ → ℚ} {times : List ℚ} {c : Candidate} :
    c ∈ find_intro_candidates_raw cfg M times ↔
      ∃ i j, i < times.length ∧ i + int_floor cfg.min_intro_length ≤ j ∧ j < times.length ∧
        candidateAt cfg M times i j = some c := by
  rw [find_intro_candidates_raw]
  simp only [List.mem_flatMap, List.mem_filterMap, List.mem_range, List.mem_range'_1]
  constructor
  · rintro ⟨i, hi, j, ⟨hj1, hj2⟩, heq⟩
    exact ⟨i, j, hi, hj1, by omega, heq⟩
  · rintro ⟨i, j, hi, hij, hj, heq⟩
    exact ⟨i, hi, j, ⟨hij, by omega⟩, heq⟩

theorem candidateAt_eq_some {cfg : IntroDetector} {M : ℕ → ℕ → ℚ} {times : List ℚ}
    {i j : ℕ} {c : Candidate} :
    candidateAt cfg M times i j = some c ↔
      times.getD j 0 - times.getD i 0 ≤ cfg.max_intro_length ∧
      candidate_probe cfg M times i j = some c := by
  rw [candidateAt]
  by_cases h : cfg.max_intro_length < times.getD j 0 - times.getD i 0
  · rw [if_pos h]
    constructor
    · intro hc; cases hc
    · intro hc; exact absurd hc.1 (not_le.2 h)
  · rw [if_neg h]
    simp only [iff_and_self]
    intro _
    exact le_of_not_lt h

theorem candidate_probe_eq_some {cfg : IntroDetector} {M : ℕ → ℕ → ℚ} {times : List ℚ}
    {i j : ℕ} {c : Candidate} :
    candidate_probe cfg M times i j = some c ↔
      cfg.similarity_threshold < sequence_similarity M times.length i j ∧
      cfg.min_intro_length ≤
        times.getD (i + end_offset cfg M times.length i j) 0 - times.getD i 0 ∧
      times.getD (i + end_offset cfg M times.length i j) 0 - times.getD i 0 ≤
        cfg.max_intro_length ∧
      c = ⟨times.getD i 0, times.getD (i + end_offset cfg M times.length i j) 0,
           times.getD (i + end_offset cfg M times.length i j) 0 - times.getD i 0,
           sequence_similarity M times.length i j⟩ := by
  rw [candidate_probe]
  by_cases h1 : cfg.similarity_threshold < sequence_similarity M times.length i j
  · rw [if_pos h1]
    by_cases h2 : cfg.min_intro_length ≤
        times.getD (i + end_offset cfg M times.length i j) 0 - times.getD i 0 ∧
        times.getD (i + end_offset cfg M times.length i j) 0 - times.getD i 0 ≤
          cfg.max_intro_length
    · rw [if_pos h2]
      simp only [Option.some.injEq]
      constructor
      · intro hc; exact ⟨h1, h2.1, h2.2, hc.symm⟩
      · intro hc; exact hc.2.2.2.symm
    · rw [if_neg h2]
      constructor
      · intro hc; cases hc
      · intro hc; exact absurd ⟨hc.2.1, hc.2.2.1⟩ h2
  · rw [if_neg h1]
    constructor
    · intro hc; cases hc
    · intro hc; exact absurd hc.1 h1

theorem mem_find_mem_sorted {cfg : IntroDetector} {M : ℕ → ℕ → ℚ} {times : List ℚ}
    {c : Candidate} (hc : c ∈ find_intro_candidates cfg M times) :
    c ∈ sortCandidates (find_intro_candidates_raw cfg M times) := by
  rw [find_intro_candidates] at hc
  rcases mem_filter_overlapping _ [] c hc with h | h
  · cases h
  · exact h

theorem mem_find_mem_raw {cfg : IntroDetector} {M : ℕ → ℕ → ℚ} {times : List ℚ}
    {c : Candidate} (hc : c ∈ find_intro_candidates cfg M times) :
    c ∈ find_intro_candidates_raw cfg M times :=
  mem_sortCandidates.1 (mem_find_mem_sorted hc)

theorem find_eq_nil_of_raw_eq_nil {cfg : IntroDetector} {M : ℕ → ℕ → ℚ} {times : List ℚ}
    (h : find_intro_candidates_raw cfg M times = []) :
    find_intro_candidates cfg M times = [] := by
  rw [find_intro_candidates, h]
  rfl

/-! Section: Helper lemmas: means of lists of rationals -/

theorem list_sum_lt_of_forall_lt {l : List ℚ} {t : ℚ} (hne : l ≠ [])
    (h : ∀ x ∈ l, x < t) : l.sum < t * l.length := by
  induction l with
  | nil => cases hne rfl
  | cons a l ih =>
    rcases eq_or_ne l [] with rfl | hl
    · simpa using h a (by simp)
    · have ha := h a (List.mem_cons_self a l)
      have hs := ih hl (fun x hx => h x (List.mem_cons_of_mem a hx))
      simp only [List.sum_cons, List.length_cons]
      push_cast
      nlinarith [hs, ha]

theorem mean_lt_of_forall_lt {l : List ℚ} {t : ℚ} (hne : l ≠ [])
    (h : ∀ x ∈ l, x < t) : l.sum / (l.length : ℚ) < t := by
  have hpos : (0 : ℚ) < (l.length : ℚ) := by
    have := List.length_pos.2 hne
    exact_mod_cast this
  rw [div_lt_iff₀ hpos]
  exact lt_of_lt_of_le (list_sum_lt_of_forall_lt hne h) (by rw [mul_comm])

theorem sequence_similarity_lt {M : ℕ → ℕ → ℚ} {n i j : ℕ} {t : ℚ} (hj : j < n)
    (h : ∀ k, k < min 20 (n - j) → M (i + k) (j + k) < t) :
    sequence_similarity M n i j < t := by
  rw [sequence_similarity]
  have hlen : ((List.range (min 20 (n - j))).map (fun k => M (i + k) (j + k))).length =
      min 20 (n - j) := by simp
  apply mean_lt_of_forall_lt
  · intro hcon
    have : min 20 (n - j) = 0 := by
      rw [← hlen, hcon]
      rfl
    omega
  · intro x hx
    rcases List.mem_map.1 hx with ⟨k, hk, rfl⟩
    exact h k (List.mem_range.1 hk)

/-! Section: Helper lemmas: int_floor and the extension loop -/

theorem one_le_int_floor {q : ℚ} (h : 1 ≤ q) : 1 ≤ int_floor q := by
  rw [int_floor]
  have h2 : (1 : ℤ) ≤ Rat.floor q := Rat.le_floor.mpr (by exact_mod_cast h)
  omega

theorem runLen_le (p : ℕ → Bool) : ∀ (fuel k : ℕ), runLen p k fuel ≤ fuel := by
  intro fuel
  induction fuel with
  | zero => intro k; rw [runLen]
  | succ f ih =>
    intro k
    rw [runLen]
    by_cases h : p k = true
    · rw [if_pos h]
      exact Nat.succ_le_succ (ih (k + 1))
    · rw [if_neg h]
      omega

theorem runLen_true (p : ℕ → Bool) :
    ∀ (fuel k m : ℕ), m < runLen p k fuel → p (k + m) = true := by
  intro fuel
  induction fuel with
  | zero => intro k m h; rw [runLen] at h; omega
  | succ f ih =>
    intro k m h
    rw [runLen] at h
    by_cases hp : p k = true
    · rw [if_pos hp] at h
      cases m with
      | zero => simpa using hp
      | succ m2 =>
        have h2 : m2 < runLen p (k + 1) f := by omega
        have := ih (k + 1) m2 h2
        rw [show k + (m2 + 1) = k + 1 + m2 by omega]
        exact this
    · rw [if_neg hp] at h
      omega

theorem runLen_stop (p : ℕ → Bool) :
    ∀ (fuel k : ℕ), runLen p k fuel < fuel → p (k + runLen p k fuel) = false := by
  intro fuel
  induction fuel with
  | zero => intro k h; omega
  | succ f ih =>
    intro k h
    rw [runLen] at h ⊢
    by_cases hp : p k = true
    · rw [if_pos hp] at h ⊢
      have h2 : runLen p (k + 1) f < f := by omega
      have := ih (k + 1) h2
      rw [show k + (runLen p (k + 1) f + 1) = k + 1 + runLen p (k + 1) f by omega]
      exact this
    · rw [if_neg hp] at h ⊢
      simpa using hp

theorem runLen_congr (p p2 : ℕ → Bool) :
    ∀ (fuel k : ℕ), (∀ m, k ≤ m → m ≤ k + runLen p k fuel → p2 m = p m) →
      runLen p2 k fuel = runLen p k fuel := by
  intro fuel
  induction fuel with
  | zero => intro k _; rw [runLen, runLen]
  | succ f ih =>
    intro k h
    rw [runLen, runLen]
    by_cases hp : p k = true
    · have hrw : runLen p k (f + 1) = runLen p (k + 1) f + 1 := by
        rw [runLen, if_pos hp]
      have hk2 : p2 k = true := by
        rw [h k le_rfl (by omega)]
        exact hp
      rw [if_pos hp, if_pos hk2]
      have hih : runLen p2 (k + 1) f = runLen p (k + 1) f := by
        apply ih
        intro m hm1 hm2
        apply h m (by omega)
        rw [hrw]
        omega
      rw [hih]
    · have hk2 : p2 k = true → False := by
        intro hc
        rw [h k le_rfl (by omega)] at hc
        exact hp hc
      rw [if_neg hp, if_neg hk2]

theorem end_offset_loop_eq (cfg : IntroDetector) (M : ℕ → ℕ → ℚ) (i j : ℕ) :
    ∀ (fuel k e : ℕ),
      end_offset_loop cfg M i j e k fuel =
        if runLen (above_thr cfg M i j) k fuel = 0 then e
        else k + (runLen (above_thr cfg M i j) k fuel - 1) := by
  intro fuel
  induction fuel with
  | zero => intro k e; rw [end_offset_loop, runLen, if_pos rfl]
  | succ f ih =>
    intro k e
    rw [end_offset_loop, runLen]
    by_cases hp : above_thr cfg M i j k = true
    · rw [if_pos hp, if_pos hp, ih]
      by_cases h0 : runLen (above_thr cfg M i j) (k + 1) f = 0
      · rw [if_pos h0, h0]
        simp
      · rw [if_neg h0, if_neg (by omega)]
        omega
    · rw [if_neg hp, if_neg hp, if_pos rfl]

theorem end_offset_eq (cfg : IntroDetector) (M : ℕ → ℕ → ℚ) (n i j : ℕ) :
    end_offset cfg M n i j =
      runLen (above_thr cfg M i j) 0 (ext_bound cfg n j) - 1 := by
  rw [end_offset, end_offset_loop_eq]
  by_cases h : runLen (above_thr cfg M i j) 0 (ext_bound cfg n j) = 0
  · rw [if_pos h, h]
  · rw [if_neg h]
    omega

/-! Section: Helper lemmas: the similarity matrix -/

theorem mem_insertAsc {x y : ℚ} {l : List ℚ} :
    x ∈ insertAsc y l ↔ x = y ∨ x ∈ l := by
  induction l with
  | nil => simp [insertAsc]
  | cons z zs ih =>
    by_cases h : y ≤ z
    · simp [insertAsc, h]
    · simp only [insertAsc, if_neg h, List.mem_cons, ih]
      tauto

theorem mem_sm_times {fingerprints : List (ℚ × List Bool)} {x : ℚ} :
    x ∈ sm_times fingerprints ↔ x ∈ fingerprints.map Prod.fst := by
  rw [sm_times]
  induction fingerprints.map Prod.fst with
  | nil => simp
  | cons t ts ih =>
    rw [List.foldr_cons, mem_insertAsc, ih, List.mem_cons]

theorem sm_times_length (fingerprints : List (ℚ × List Bool)) :
    (sm_times fingerprints).length = fingerprints.length := by
  rw [sm_times]
  have : ∀ l : List ℚ, (l.foldr insertAsc []).length = l.length := by
    intro l
    induction l with
    | nil => rfl
    | cons t ts ih =>
      rw [List.foldr_cons]
      have hlen : ∀ (x : ℚ) (m : List ℚ), (insertAsc x m).length = m.length + 1 := by
        intro x m
        induction m with
        | nil => rfl
        | cons z zs ihm =>
          by_cases h : x ≤ z
          · simp [insertAsc, h]
          · simp [insertAsc, h, ihm]
      rw [hlen, ih, List.length_cons]
  rw [this, List.length_map]

theorem fp_lookup_of_mem {fingerprints : List (ℚ × List Bool)} {t : ℚ}
    (ht : t ∈ fingerprints.map Prod.fst) :
    ∃ p ∈ fingerprints, fp_lookup fingerprints t = p.2 := by
  rcases List.mem_map.1 ht with ⟨p, hp, hpt⟩
  cases hfind : fingerprints.find? (fun q => decide (q.1 = t)) with
  | none =>
    exfalso
    have := List.find?_eq_none.1 hfind p hp
    simp only [decide_eq_true_eq] at this
    exact this hpt
  | some q =>
    refine ⟨q, List.mem_of_find?_eq_some hfind, ?_⟩
    rw [fp_lookup, hfind]

theorem fp_lookup_length {fingerprints : List (ℚ × List Bool)} {t : ℚ} {L : ℕ}
    (hL : ∀ p ∈ fingerprints, p.2.length = L) (ht : t ∈ fingerprints.map Prod.fst) :
    (fp_lookup fingerprints t).length = L := by
  rcases fp_lookup_of_mem ht with ⟨p, hp, heq⟩
  rw [heq]
  exact hL p hp

theorem hamming_le_left (fp1 fp2 : List Bool) : hamming fp1 fp2 ≤ fp1.length := by
  rw [hamming]
  calc ((fp1.zip fp2).filter (fun p => p.1 != p.2)).length ≤ (fp1.zip fp2).length :=
        List.length_filter_le _ _
    _ ≤ fp1.length := by rw [List.length_zip]; omega

theorem hamming_self (fp : List Bool) : hamming fp fp = 0 := by
  induction fp with
  | nil => rfl
  | cons b bs ih =>
    rw [hamming] at ih ⊢
    rw [List.zip_cons_cons, List.filter_cons]
    simp only [bne_self_eq_false, Bool.false_eq_true, if_false]
    exact ih

theorem fp_similarity_self (fp : List Bool) : fp_similarity fp fp = 1 := by
  rw [fp_similarity, hamming_self]
  simp

theorem fp_similarity_of_eq {fp1 fp2 : List Bool} (h : fp1 = fp2) :
    fp_similarity fp1 fp2 = 1 := by
  rw [h]
  exact fp_similarity_self fp2

theorem fp_similarity_bounds {fp1 fp2 : List Bool} {L : ℕ}
    (h1 : fp1.length = L) (hL : 0 < L) :
    0 ≤ fp_similarity fp1 fp2 ∧ fp_similarity fp1 fp2 ≤ 1 := by
  rw [fp_similarity]
  have hd : (hamming fp1 fp2 : ℚ) ≤ (fp1.length : ℚ) := by
    exact_mod_cast hamming_le_left fp1 fp2
  have hpos : (0 : ℚ) < (fp1.length : ℚ) := by
    rw [h1]
    exact_mod_cast hL
  constructor
  · have : (hamming fp1 fp2 : ℚ) / (fp1.length : ℚ) ≤ 1 := by
      rw [div_le_one hpos]
      exact hd
    linarith
  · have : 0 ≤ (hamming fp1 fp2 : ℚ) / (fp1.length : ℚ) :=
      div_nonneg (by positivity) (le_of_lt hpos)
    linarith

theorem getD_mem_of_lt {l : List ℚ} {i : ℕ} (h : i < l.length) : l.getD i 0 ∈ l := by
  rw [List.getD_eq_getElem l 0 h]
  exact List.getElem_mem h

/-! Section: Claim theorems -/

/-- C7: for every mapping of timestamps to fingerprints of equal non-zero
length, the matrix returned by compute_similarity_matrix is symmetric,
every entry lies in [0, 1], every diagonal entry equals exactly 1, and two
identical fingerprints yield similarity exactly 1. -/
theorem similarity_matrix_invariants (fingerprints : List (ℚ × List Bool)) (L : ℕ)
    (hL : ∀ p ∈ fingerprints, p.2.length = L) (hL0 : 0 < L) (i j : ℕ)
    (hi : i < (sm_times fingerprints).length) (hj : j < (sm_times fingerprints).length) :
    sm_entry fingerprints i j = sm_entry fingerprints j i ∧
    0 ≤ sm_entry fingerprints i j ∧ sm_entry fingerprints i j ≤ 1 ∧
    (i = j → sm_entry fingerprints i j = 1) ∧
    (fp_lookup fingerprints ((sm_times fingerprints).getD i 0) =
        fp_lookup fingerprints ((sm_times fingerprints).getD j 0) →
      sm_entry fingerprints i j = 1) := by
  have hlook : ∀ k, k < (sm_times fingerprints).length →
      (fp_lookup fingerprints ((sm_times fingerprints).getD k 0)).length = L := by
    intro k hk
    exact fp_lookup_length hL (mem_sm_times.1 (getD_mem_of_lt hk))
  refine ⟨?_, ?_, ?_, ?_, ?_⟩
  · rw [sm_entry, sm_entry]
    simp only [if_pos (And.intro hi hj), if_pos (And.intro hj hi)]
    rcases lt_trichotomy i j with hij | hij | hij
    · rw [if_pos (le_of_lt hij), if_neg (not_le.2 hij)]
    · subst hij
      rfl
    · rw [if_neg (not_le.2 hij), if_pos (le_of_lt hij)]
  · rw [sm_entry]
    simp only [if_pos (And.intro hi hj)]
    by_cases hij : i ≤ j
    · rw [if_pos hij]
      exact (fp_similarity_bounds (hlook i hi) hL0).1
    · rw [if_neg hij]
      exact (fp_similarity_bounds (hlook j hj) hL0).1
  · rw [sm_entry]
    simp only [if_pos (And.intro hi hj)]
    by_cases hij : i ≤ j
    · rw [if_pos hij]
      exact (fp_similarity_bounds (hlook i hi) hL0).2
    · rw [if_neg hij]
      exact (fp_similarity_bounds (hlook j hj) hL0).2
  · intro hij
    subst hij
    rw [sm_entry]
    simp only [if_pos (And.intro hi hi), if_pos (le_refl i)]
    exact fp_similarity_self _
  · intro hfp
    rw [sm_entry]
    simp only [if_pos (And.intro hi hj)]
    by_cases hij : i ≤ j
    · rw [if_pos hij]
      exact fp_similarity_of_eq hfp
    · rw [if_neg hij]
      exact fp_similarity_of_eq hfp.symm

/-- Witness for C7: the two-sample fingerprint mapping fps2 with
fingerprints of length two; symmetry and bounds at (0, 1), the diagonal
value and the identical-fingerprint value at (0, 0). -/
theorem similarity_matrix_invariants_witness :
    sm_entry fps2 0 1 = sm_entry fps2 1 0 ∧
    0 ≤ sm_entry fps2 0 1 ∧ sm_entry fps2 0 1 ≤ 1 ∧
    sm_entry fps2 0 0 = 1 :=
  ⟨(similarity_matrix_invariants fps2 2 (by with_unfolding_all decide) (by norm_num) 0 1
      (by with_unfolding_all decide) (by with_unfolding_all decide)).1,
   (similarity_matrix_invariants fps2 2 (by with_unfolding_all decide) (by norm_num) 0 1
      (by with_unfolding_all decide) (by with_unfolding_all decide)).2.1,
   (similarity_matrix_invariants fps2 2 (by with_unfolding_all decide) (by norm_num) 0 1
      (by with_unfolding_all decide) (by with_unfolding_all decide)).2.2.1,
   (similarity_matrix_invariants fps2 2 (by with_unfolding_all decide) (by norm_num) 0 0
      (by with_unfolding_all decide) (by with_unfolding_all decide)).2.2.2.1 rfl⟩

/-- C4: when the lookahead probe for (i, j) exceeds the similarity
threshold, the extension walks k from 0 bounded by
min(int(max_intro_length), n - j), its end_offset is one less than the
length of the maximal contiguous run of strictly-above-threshold diagonal
cells starting at k = 0, every cell inside the run is strictly above the
threshold, the cell at the first failure is not, and the result ignores
every cell beyond the first failure (no recovery after a gap). -/
theorem extension_walk_characterization (cfg : IntroDetector) (M M2 : ℕ → ℕ → ℚ)
    (n i j : ℕ)
    (_hprobe : cfg.similarity_threshold < sequence_similarity M n i j)
    (hagree : ∀ m, m ≤ runLen (above_thr cfg M i j) 0 (ext_bound cfg n j) →
      M2 (i + m) (j + m) = M (i + m) (j + m)) :
    end_offset cfg M n i j =
      runLen (above_thr cfg M i j) 0 (ext_bound cfg n j) - 1 ∧
    (∀ k, k < runLen (above_thr cfg M i j) 0 (ext_bound cfg n j) →
      cfg.similarity_threshold < M (i + k) (j + k)) ∧
    (runLen (above_thr cfg M i j) 0 (ext_bound cfg n j) < ext_bound cfg n j →
      ¬ cfg.similarity_threshold <
        M (i + runLen (above_thr cfg M i j) 0 (ext_bound cfg n j))
          (j + runLen (above_thr cfg M i j) 0 (ext_bound cfg n j))) ∧
    end_offset cfg M2 n i j = end_offset cfg M n i j := by
  refine ⟨end_offset_eq cfg M n i j, ?_, ?_, ?_⟩
  · intro k hk
    have := runLen_true (above_thr cfg M i j) (ext_bound cfg n j) 0 k hk
    rw [above_thr] at this
    simpa using this
  · intro hlt hcon
    have := runLen_stop (above_thr cfg M i j) (ext_bound cfg n j) 0 hlt
    rw [above_thr] at this
    simp only [Nat.zero_add, decide_eq_false_iff_not] at this
    exact this hcon
  · rw [end_offset_eq, end_offset_eq]
    have hcong : runLen (above_thr cfg M2 i j) 0 (ext_bound cfg n j) =
        runLen (above_thr cfg M i j) 0 (ext_bound cfg n j) := by
      apply runLen_congr
      intro m hm1 hm2
      rw [above_thr, above_thr, hagree m (by omega)]
    rw [hcong]

/-- Witness for C4: the pair (0, 2) on the all-ones matrix with the default
configuration; the probe value 1 exceeds the threshold 0.8 and the claimed
end_offset equation holds. -/
theorem extension_walk_characterization_witness :
    cfg_default.similarity_threshold < sequence_similarity M_ones 6 0 2 ∧
    end_offset cfg_default M_ones 6 0 2 =
      runLen (above_thr cfg_default M_ones 0 2) 0 (ext_bound cfg_default 6 2) - 1 :=
  ⟨by with_unfolding_all decide,
   (extension_walk_characterization cfg_default M_ones M_ones 6 0 2
      (by with_unfolding_all decide) (fun m _ => rfl)).1⟩

/-- C5: for every similarity matrix and times list, no two candidates in
the filtered list returned by find_intro_candidates have intersecting
half-open time intervals, and its length never exceeds 5. -/
theorem filtered_candidates_disjoint_and_capped (cfg : IntroDetector)
    (M : ℕ → ℕ → ℚ) (times : List ℚ) :
    (find_intro_candidates cfg M times).Pairwise
      (fun c other => ¬(c.start_time < other.end_time ∧ c.end_time > other.start_time)) ∧
    (find_intro_candidates cfg M times).length ≤ 5 := by
  have h := filter_overlapping_invariant
    (sortCandidates (find_intro_candidates_raw cfg M times)) [] List.Pairwise.nil
    (by simp)
  rw [find_intro_candidates]
  exact h

/-- C6: every candidate emitted by find_intro_candidates has its duration
between min_intro_length and max_intro_length, and the duration is
times[i + end_offset] - times[i] for its start index i and the extension
end_offset of the generating pair (i, j). -/
theorem candidate_duration_bounds (cfg : IntroDetector) (M : ℕ → ℕ → ℚ)
    (times : List ℚ) (c : Candidate) (hc : c ∈ find_intro_candidates cfg M times) :
    cfg.min_intro_length ≤ c.duration ∧ c.duration ≤ cfg.max_intro_length ∧
    ∃ i j, i < times.length ∧ j < times.length ∧
      c.start_time = times.getD i 0 ∧
      c.end_time = times.getD (i + end_offset cfg M times.length i j) 0 ∧
      c.duration =
        times.getD (i + end_offset cfg M times.length i j) 0 - times.getD i 0 := by
  rcases mem_raw_iff.1 (mem_find_mem_raw hc) with ⟨i, j, hi, hij, hj, hAt⟩
  rcases candidateAt_eq_some.1 hAt with ⟨hdt, hprobe⟩
  rcases candidate_probe_eq_some.1 hprobe with ⟨hs, hmin, hmax, hcval⟩
  subst hcval
  exact ⟨hmin, hmax, i, j, hi, hj, rfl, rfl, rfl⟩

/-- Witness for C6: the single surviving candidate on the all-ones matrix
with the default configuration is a member of the output and its duration 6
lies between 2 and 30. -/
theorem candidate_duration_bounds_witness :
    cand_top ∈ find_intro_candidates cfg_default M_ones times6 ∧
    cfg_default.min_intro_length ≤ cand_top.duration ∧
    cand_top.duration ≤ cfg_default.max_intro_length :=
  ⟨by with_unfolding_all decide,
   (candidate_duration_bounds cfg_default M_ones times6 cand_top
      (by with_unfolding_all decide)).1,
   (candidate_duration_bounds cfg_default M_ones times6 cand_top
      (by with_unfolding_all decide)).2.1⟩

theorem score_gt_of_mem_find {cfg : IntroDetector} {M : ℕ → ℕ → ℚ} {times : List ℚ}
    {c : Candidate} (hc : c ∈ find_intro_candidates cfg M times) :
    cfg.similarity_threshold < c.similarity_score := by
  rcases mem_raw_iff.1 (mem_find_mem_raw hc) with ⟨i, j, _, _, _, hAt⟩
  rcases candidateAt_eq_some.1 hAt with ⟨-, hprobe⟩
  rcases candidate_probe_eq_some.1 hprobe with ⟨hs, -, -, hval⟩
  rw [hval]
  exact hs

/-- C10: every candidate emitted by find_intro_candidates has
similarity_score strictly above similarity_threshold, and any found result
of detect_intro carries a confidence strictly above the threshold. -/
theorem candidate_score_above_threshold (cfg : IntroDetector) (M : ℕ → ℕ → ℚ)
    (times : List ℚ) (fingerprints : List (ℚ × List Bool)) :
    (∀ c ∈ find_intro_candidates cfg M times,
      cfg.similarity_threshold < c.similarity_score) ∧
    (∀ s e d conf,
      (detect_intro_run cfg (Except.ok fingerprints) none).2 =
        Except.ok (DetectionResult.found s e d conf) →
      cfg.similarity_threshold < conf) := by
  constructor
  · intro c hc
    exact score_gt_of_mem_find hc
  · intro s e d conf h
    simp only [detect_intro_run] at h
    cases hcase : find_intro_candidates cfg (sm_entry fingerprints) (sm_times fingerprints) with
    | nil =>
      rw [hcase] at h
      simp only [detect_result_of, Except.ok.injEq] at h
      cases h
    | cons best rest =>
      rw [hcase] at h
      simp only [detect_result_of, Except.ok.injEq, DetectionResult.found.injEq] at h
      have hbest : best ∈ find_intro_candidates cfg (sm_entry fingerprints)
          (sm_times fingerprints) := by
        rw [hcase]
        exact List.mem_cons_self best rest
      have := score_gt_of_mem_find hbest
      rw [← h.2.2.2]
      exact this

/-- Witness for C10: the surviving candidate on the all-ones matrix, and a
pipeline run on fps6 whose found confidence is 1, above the threshold. -/
theorem candidate_score_above_threshold_witness :
    cand_top ∈ find_intro_candidates cfg_default M_ones times6 ∧
    cfg_default.similarity_threshold < cand_top.similarity_score ∧
    cfg_default.similarity_threshold < (1 : ℚ) :=
  ⟨by with_unfolding_all decide,
   (candidate_score_above_threshold cfg_default M_ones times6 fps6).1 cand_top
     (by with_unfolding_all decide),
   (candidate_score_above_threshold cfg_default M_ones times6 fps6).2 0 6 6 1
     (by with_unfolding_all decide)⟩

theorem raw_eq_nil_of_offdiag (cfg : IntroDetector) (M : ℕ → ℕ → ℚ) (times : List ℚ)
    (hmin : 1 ≤ cfg.min_intro_length)
    (hM : off_diag_below M times.length cfg.similarity_threshold) :
    find_intro_candidates_raw cfg M times = [] := by
  rw [List.eq_nil_iff_forall_not_mem]
  intro c hc
  rcases mem_raw_iff.1 hc with ⟨i, j, hi, hij, hj, hAt⟩
  rcases candidateAt_eq_some.1 hAt with ⟨-, hprobe⟩
  rcases candidate_probe_eq_some.1 hprobe with ⟨hs, -, -, -⟩
  have hone : 1 ≤ int_floor cfg.min_intro_length := one_le_int_floor hmin
  have hiltj : i < j := by omega
  have hlt : sequence_similarity M times.length i j < cfg.similarity_threshold := by
    apply sequence_similarity_lt hj
    intro k hk
    have hk2 : k < times.length - j := lt_of_lt_of_le hk (min_le_right _ _)
    exact hM (i + k) (by omega) (j + k) (by omega) (by omega)
  exact absurd hs (not_lt.2 (le_of_lt hlt))

/-- C8 (amended): when min_intro_length is at least one second, a
similarity matrix whose off-diagonal entries all lie strictly below
similarity_threshold yields an empty candidate list, and the corresponding
detect_intro run returns the not-found result. -/
theorem below_threshold_offdiag_no_candidates (cfg : IntroDetector) (M : ℕ → ℕ → ℚ)
    (times : List ℚ) (fingerprints : List (ℚ × List Bool))
    (hmin : 1 ≤ cfg.min_intro_length)
    (hM : off_diag_below M times.length cfg.similarity_threshold)
    (hfp : off_diag_below (sm_entry fingerprints) (sm_times fingerprints).length
      cfg.similarity_threshold) :
    find_intro_candidates cfg M times = [] ∧
    detect_intro_run cfg (Except.ok fingerprints) none =
      (true, Except.ok DetectionResult.notFound) := by
  refine ⟨find_eq_nil_of_raw_eq_nil (raw_eq_nil_of_offdiag cfg M times hmin hM), ?_⟩
  have h2 := find_eq_nil_of_raw_eq_nil
    (raw_eq_nil_of_offdiag cfg (sm_entry fingerprints) (sm_times fingerprints) hmin hfp)
  simp only [detect_intro_run, h2]
  rfl

/-- Witness for C8: the diagonal matrix on five samples and the
three-sample fingerprint mapping fps3, both entirely below the default
threshold off the diagonal. -/
theorem below_threshold_offdiag_no_candidates_witness :
    find_intro_candidates cfg_default M_diag times5 = [] ∧
    detect_intro_run cfg_default (Except.ok fps3) none =
      (true, Except.ok DetectionResult.notFound) :=
  below_threshold_offdiag_no_candidates cfg_default M_diag times5 fps3
    (by norm_num [cfg_default]) (by with_unfolding_all decide)
    (by with_unfolding_all decide)

/-- Counterexample for C8 as stated: with min_intro_length = 0.5 the loop
offset int(0.5) is 0, so the search probes pairs (i, i) along the main
diagonal; on a matrix whose off-diagonal entries are all 0, strictly below
the threshold 0.8, find_intro_candidates is nonetheless nonempty. -/
theorem below_threshold_offdiag_counterexample :
    off_diag_below M_diag times5.length cfg_half.similarity_threshold ∧
    find_intro_candidates cfg_half M_diag times5 ≠ [] :=
  ⟨by with_unfolding_all decide, by with_unfolding_all decide⟩

/-- C9 (amended): when min_intro_length is positive, a timeline with at
most one sample yields no candidate, and the corresponding detect_intro
run returns the not-found result. -/
theorem short_timeline_no_candidates (cfg : IntroDetector)
    (hmin : 0 < cfg.min_intro_length) :
    (∀ (M : ℕ → ℕ → ℚ) (times : List ℚ), times.length ≤ 1 →
      find_intro_candidates cfg M times = []) ∧
    (∀ fingerprints : List (ℚ × List Bool), (sm_times fingerprints).length ≤ 1 →
      detect_intro_run cfg (Except.ok fingerprints) none =
        (true, Except.ok DetectionResult.notFound)) := by
  have hfind : ∀ (M : ℕ → ℕ → ℚ) (times : List ℚ), times.length ≤ 1 →
      find_intro_candidates cfg M times = [] := by
    intro M times hn
    apply find_eq_nil_of_raw_eq_nil
    rw [List.eq_nil_iff_forall_not_mem]
    intro c hc
    rcases mem_raw_iff.1 hc with ⟨i, j, hi, hij, hj, hAt⟩
    have hi0 : i = 0 := by omega
    have hj0 : j = 0 := by omega
    subst hi0
    subst hj0
    rcases candidateAt_eq_some.1 hAt with ⟨-, hprobe⟩
    rcases candidate_probe_eq_some.1 hprobe with ⟨-, hminle, -, -⟩
    have he : end_offset cfg M times.length 0 0 = 0 := by
      rw [end_offset_eq]
      have h1 := runLen_le (above_thr cfg M 0 0) (ext_bound cfg times.length 0) 0
      have h2 : ext_bound cfg times.length 0 ≤ 1 := by
        rw [ext_bound]
        have := min_le_right (int_floor cfg.max_intro_length) (times.length - 0)
        omega
      omega
    rw [he] at hminle
    simp only [Nat.add_zero, sub_self] at hminle
    linarith
  refine ⟨hfind, ?_⟩
  intro fingerprints hn
  have h2 := hfind (sm_entry fingerprints) (sm_times fingerprints) hn
  simp only [detect_intro_run, h2]
  rfl

/-- Witness for C9: the default configuration on a one-sample timeline and
a one-sample fingerprint mapping. -/
theorem short_timeline_no_candidates_witness :
    (0 : ℚ) < cfg_default.min_intro_length ∧
    find_intro_candidates cfg_default M_ones times1 = [] ∧
    detect_intro_run cfg_default (Except.ok fps1) none =
      (true, Except.ok DetectionResult.notFound) :=
  ⟨by norm_num [cfg_default],
   (short_timeline_no_candidates cfg_default (by norm_num [cfg_default])).1 M_ones times1
     (by with_unfolding_all decide),
   (short_timeline_no_candidates cfg_default (by norm_num [cfg_default])).2 fps1
     (by with_unfolding_all decide)⟩

/-- Counterexample for C9 as stated: with min_intro_length = 0 the search
examines the pair (0, 0) of a one-sample timeline, its diagonal probe value
1 exceeds the threshold, the duration 0 passes the bound check, and a
candidate is emitted, so the result is not the empty list. -/
theorem short_timeline_counterexample :
    times1.length ≤ 1 ∧ find_intro_candidates cfg_zero M_ones times1 ≠ [] :=
  ⟨by with_unfolding_all decide, by with_unfolding_all decide⟩

/-- C1 (amended): a candidate is generated exactly from the ordered pairs
(i, j) with i + int(min_intro_length) ≤ j < n, min_intro_length in seconds
truncated to an integer and used directly as an index offset with no
sampling-rate conversion, and times[j] - times[i] ≤ max_intro_length; every
such pair is examined by the double loop. -/
theorem pair_enumeration_characterization (cfg : IntroDetector) (M : ℕ → ℕ → ℚ)
    (times : List ℚ) (c : Candidate) (_hmin : 0 ≤ cfg.min_intro_length) :
    c ∈ find_intro_candidates_raw cfg M times ↔
      ∃ i j, i < times.length ∧ i + int_floor cfg.min_intro_length ≤ j ∧
        j < times.length ∧
        times.getD j 0 - times.getD i 0 ≤ cfg.max_intro_length ∧
        candidate_probe cfg M times i j = some c := by
  rw [mem_raw_iff]
  constructor
  · rintro ⟨i, j, hi, hij, hj, hAt⟩
    rcases candidateAt_eq_some.1 hAt with ⟨hdt, hprobe⟩
    exact ⟨i, j, hi, hij, hj, hdt, hprobe⟩
  · rintro ⟨i, j, hi, hij, hj, hdt, hprobe⟩
    exact ⟨i, j, hi, hij, hj, candidateAt_eq_some.2 ⟨hdt, hprobe⟩⟩

/-- Witness for C1: with the default configuration the pair (0, 2) of
times6 satisfies the amended enumeration conditions, yields a candidate,
and that candidate is in the raw list. -/
theorem pair_enumeration_characterization_witness :
    candidate_probe cfg_default M_ones times6 0 2 = some cand_top ∧
    cand_top ∈ find_intro_candidates_raw cfg_default M_ones times6 :=
  ⟨by with_unfolding_all decide,
   (pair_enumeration_characterization cfg_default M_ones times6 cand_top
      (by norm_num [cfg_default])).mpr
     ⟨0, 2, by with_unfolding_all decide, by with_unfolding_all decide,
      by with_unfolding_all decide, by with_unfolding_all decide,
      by with_unfolding_all decide⟩⟩

/-- Counterexample for C1 as stated: with min_intro_length = 3 seconds and
the default sampling rate 0.5, the enumeration claimed by the spec, over
pairs with j > i + min_intro_length_samples, produces a different candidate
list than the source loop, which starts j at i + int(min_intro_length);
the pair (0, 2) satisfies the claimed conditions and yields a candidate
the source never produces, since the source starts j at i + 3. -/
theorem pair_enumeration_not_sampling_rate_based :
    find_intro_candidates_raw cfg_three M_ones times6 = [⟨0, 4, 4, 1⟩] ∧
    find_intro_candidates_raw_specified cfg_three (1/2) M_ones times6 ≠
      find_intro_candidates_raw cfg_three M_ones times6 :=
  ⟨by with_unfolding_all decide, by with_unfolding_all decide⟩

theorem find_head_score_max {cfg : IntroDetector} {M : ℕ → ℕ → ℚ} {times : List ℚ}
    {best : Candidate} {rest : List Candidate}
    (h : find_intro_candidates cfg M times = best :: rest) :
    ∀ c ∈ find_intro_candidates cfg M times,
      c.similarity_score ≤ best.similarity_score := by
  intro c hcmem
  have hsorted := sorted_sortCandidates (find_intro_candidates_raw cfg M times)
  cases hcase : sortCandidates (find_intro_candidates_raw cfg M times) with
  | nil =>
    rw [find_intro_candidates, hcase, filter_overlapping] at h
    cases h
  | cons d t =>
    have hstep : filter_overlapping [] (d :: t) = filter_overlapping [d] t := by
      rw [filter_overlapping, if_neg (by simp)]
      norm_num
    rcases filter_overlapping_extends t [d] with ⟨t2, ht2⟩
    have hfind2 : find_intro_candidates cfg M times = d :: t2 := by
      rw [find_intro_candidates, hcase, hstep, ht2]
      rfl
    have hbest : best = d := by
      rw [hfind2] at h
      exact (List.cons.injEq _ _ _ _ ▸ h).1.symm
    rw [hbest]
    have hcs : c ∈ d :: t := by
      rw [← hcase]
      have hc2 : c ∈ filter_overlapping []
          (sortCandidates (find_intro_candidates_raw cfg M times)) := by
        rw [← find_intro_candidates]
        exact hcmem
      rcases mem_filter_overlapping _ [] c hc2 with h3 | h3
      · cases h3
      · exact h3
    rcases List.mem_cons.1 hcs with rfl | hcs2
    · exact le_refl _
    · rw [hcase] at hsorted
      exact (List.pairwise_cons.1 hsorted).1 c hcs2

/-- C2 (amended): on the path where extraction succeeds and the candidate
search does not raise, detect_intro releases the decoding resource at line
113 and returns the mapping of the candidate list prescribed at lines
115-127: found False when no candidate survives, else the top-ranked
candidate, whose score bounds every other score, mapped to found True with
start_time, end_time, duration and confidence. -/
theorem detect_intro_release_and_mapping (cfg : IntroDetector)
    (fingerprints : List (ℚ × List Bool)) :
    (detect_intro_run cfg (Except.ok fingerprints) none).1 = true ∧
    (detect_intro_run cfg (Except.ok fingerprints) none).2 =
      Except.ok (detect_result_of
        (find_intro_candidates cfg (sm_entry fingerprints) (sm_times fingerprints))) ∧
    ∀ best rest,
      find_intro_candidates cfg (sm_entry fingerprints) (sm_times fingerprints) =
        best :: rest →
      ∀ c ∈ find_intro_candidates cfg (sm_entry fingerprints) (sm_times fingerprints),
        c.similarity_score ≤ best.similarity_score := by
  refine ⟨rfl, rfl, ?_⟩
  intro best rest h c hc
  exact find_head_score_max h c hc

/-- Witness for C2: a full pipeline run on fps6 releases the resource and
its single surviving candidate bounds its own score. -/
theorem detect_intro_release_and_mapping_witness :
    (detect_intro_run cfg_default (Except.ok fps6) none).1 = true ∧
    (detect_intro_run cfg_default (Except.ok fps6) none).2 =
      Except.ok (detect_result_of
        (find_intro_candidates cfg_default (sm_entry fps6) (sm_times fps6))) ∧
    cand_top.similarity_score ≤ cand_top.similarity_score :=
  ⟨(detect_intro_release_and_mapping cfg_default fps6).1,
   (detect_intro_release_and_mapping cfg_default fps6).2.1,
   (detect_intro_release_and_mapping cfg_default fps6).2.2 cand_top []
     (by with_unfolding_all decide) cand_top (by with_unfolding_all decide)⟩

/-- Counterexample for C2 as stated: nothing in detect_intro guards the
release call, so when the candidate search raises, the exception
propagates and extractor.release_resources() at line 113 never executes:
the release flag of the run is false. -/
theorem detect_intro_no_release_on_search_exception :
    (detect_intro_run cfg_default (Except.ok fps6) (some err0)).1 = false ∧
    (detect_intro_run cfg_default (Except.ok fps6) (some err0)).2 = Except.error err0 :=
  ⟨rfl, rfl⟩

theorem batch_loop_nil (acc : List (String × DetectionResult)) :
    batch_loop [] acc = Except.ok acc := rfl

theorem batch_loop_cons_ok (fn : String) (r : DetectionResult)
    (rest : List (String × Except PyErr DetectionResult))
    (acc : List (String × DetectionResult)) :
    batch_loop ((fn, Except.ok r) :: rest) acc =
      if isSupported fn then batch_loop rest (acc ++ [(fn, r)])
      else batch_loop rest acc := by
  simp only [batch_loop]

theorem batch_loop_cons_err (fn : String) (e : PyErr)
    (rest : List (String × Except PyErr DetectionResult))
    (acc : List (String × DetectionResult)) :
    batch_loop ((fn, Except.error e) :: rest) acc =
      if isSupported fn then Except.error e
      else batch_loop rest acc := by
  simp only [batch_loop]

theorem batch_loop_all_ok :
    ∀ (okFiles acc : List (String × DetectionResult)),
      batch_loop (okFiles.map (fun p => (p.1, Except.ok p.2))) acc =
        Except.ok (acc ++ okFiles.filter (fun p => isSupported p.1)) := by
  intro okFiles
  induction okFiles with
  | nil =>
    intro acc
    rw [List.map_nil, batch_loop_nil]
    simp
  | cons p rest ih =>
    intro acc
    rw [List.map_cons]
    by_cases hs : isSupported p.1 = true
    · rw [batch_loop_cons_ok, if_pos hs, ih, List.filter_cons, if_pos hs]
      simp
    · rw [batch_loop_cons_ok, if_neg hs, ih, List.filter_cons, if_neg hs]

theorem batch_loop_err :
    ∀ (files : List (String × Except PyErr DetectionResult))
      (acc : List (String × DetectionResult)) (name : String) (e : PyErr),
      (name, Except.error e) ∈ files → isSupported name = true →
      ∀ l, batch_loop files acc ≠ Except.ok l := by
  intro files
  induction files with
  | nil =>
    intro acc name e hmem
    cases hmem
  | cons f rest ih =>
    intro acc name e hmem hsup l hcon
    rcases List.mem_cons.1 hmem with heq | hmem2
    · rw [← heq, batch_loop_cons_err, if_pos hsup] at hcon
      cases hcon
    · obtain ⟨fn, out⟩ := f
      cases out with
      | error e2 =>
        rw [batch_loop_cons_err] at hcon
        by_cases hs : isSupported fn = true
        · rw [if_pos hs] at hcon
          cases hcon
        · rw [if_neg hs] at hcon
          exact ih _ name e hmem2 hsup l hcon
      | ok r =>
        rw [batch_loop_cons_ok] at hcon
        by_cases hs : isSupported fn = true
        · rw [if_pos hs] at hcon
          exact ih _ name e hmem2 hsup l hcon
        · rw [if_neg hs] at hcon
          exact ih _ name e hmem2 hsup l hcon

/-- C3 (amended): batch_detect_intros wraps no try/except around
detect_intro, so when every supported file succeeds the returned mapping
holds exactly the supported files in directory order, but a failure raised
while processing any supported file propagates and aborts the batch: no
mapping at all is returned. -/
theorem batch_detect_behavior :
    (∀ okFiles : List (String × DetectionResult),
      batch_detect_intros (okFiles.map (fun p => (p.1, Except.ok p.2))) =
        Except.ok (okFiles.filter (fun p => isSupported p.1))) ∧
    (∀ (files : List (String × Except PyErr DetectionResult)) (name : String) (e : PyErr),
      (name, Except.error e) ∈ files → isSupported name = true →
      ∀ l, batch_detect_intros files ≠ Except.ok l) := by
  constructor
  · intro okFiles
    rw [batch_detect_intros, batch_loop_all_ok]
    rfl
  · intro files name e hmem hsup l
    rw [batch_detect_intros]
    exact batch_loop_err files [] name e hmem hsup l

/-- Witness for C3: a successful batch over one supported and one
unsupported file returns the mapping with only the supported file, and the
failing batch files_bad returns no mapping. -/
theorem batch_detect_behavior_witness :
    batch_detect_intros
        [(("a.mp4" : String), Except.ok DetectionResult.notFound),
         (("x.txt" : String), Except.ok DetectionResult.notFound)] =
      Except.ok [(("a.mp4" : String), DetectionResult.notFound)] ∧
    batch_detect_intros files_bad ≠ Except.ok [] := by
  constructor
  · have h := (batch_detect_behavior).1
      [(("a.mp4" : String), DetectionResult.notFound),
       (("x.txt" : String), DetectionResult.notFound)]
    with_unfolding_all exact h
  · exact (batch_detect_behavior).2 files_bad "a.mp4" err0 (by with_unfolding_all decide)
      (by with_unfolding_all decide) []

/-- Counterexample for C3 as stated: in files_bad the first supported file
fails and the second supported file would succeed, yet the batch returns
the propagated exception rather than a mapping containing the second
file. -/
theorem batch_detect_aborts_on_failure :
    batch_detect_intros files_bad = Except.error err0 ∧
    isSupported "b.mp4" = true :=
  ⟨by with_unfolding_all decide, by with_unfolding_all decide⟩

end IntroDetection
